import Mathlib

/-!
# Verification development for the `ranges::actions` pipeline and `meta_struct`

Two programs are embedded:

* `scratch/actions/main.cpp`: the pipeline of range actions.  User callables
  may have side effects, so every callable and every method is a function that
  threads a world `W` explicitly (`W → result × W`).
* `meta_struct_20/cppcon_version`: the tagged structural records.
-/

namespace ranges.actions

/-- The enumeration `processing_style` of `main.cpp`. -/
inductive processing_style where
  | incremental
  | complete
  deriving DecidableEq, Repr

/-- A chain object whose input is processed incrementally
(`incremental_input<aco>`): the object built by `make`, with its mutable
members `obj`, and the two methods a predecessor calls on it.  `R` is the type
the whole chain finally returns. -/
structure incremental_aco (W I R : Type) : Type 1 where
  /-- The type of the mutable members of the object and of its `next`. -/
  Obj : Type
  /-- The members as constructed by `make`. -/
  obj : Obj
  /-- Method `process_incremental(input_type input)`. -/
  process_incremental : Obj → I → W → Obj × W
  /-- Method `finish()`. -/
  finish : Obj → W → R × W

/-- A chain object as seen by a predecessor whose output is complete: the
single method `process_complete`, which is called once with the whole input. -/
structure complete_aco (W I R : Type) : Type 1 where
  /-- Method `process_complete(input)`. -/
  process_complete : I → W → R × W

/-- The interface a stage requires of its `next`, selected by the stage's
`output_processing_style`. -/
@[reducible]
def aco : processing_style → Type → Type → Type → Type 1
  | .incremental, W, I, R => incremental_aco W I R
  | .complete, W, I, R => complete_aco W I R

/-- The overload `range_action_impl::process_complete(raw_input_type input)`
with `previous_output_processing_style == complete && incremental_input<child>`:
every element of the input is given to `child.process_incremental` in
iteration order, and then `child.finish()` is returned. -/
def range_action_impl.process_complete {W I R : Type}
    (child : incremental_aco W I R) : complete_aco W (List I) R where
  process_complete := fun input w =>
    let st := input.foldl
      (fun (st : child.Obj × W) v => child.process_incremental st.1 v st.2)
      (child.obj, w)
    child.finish st.1 st.2

/-- The chain terminator `detail::end_aco`: `process_complete(T&& t)` returns
`t`; with `T := Unit` this is also the overload taking `std::monostate`. -/
def detail.end_aco {W T : Type} : complete_aco W T T where
  process_complete := fun t w => (t, w)

/-- The class `range_action<Aco, incremental, o, Parameters, ...>`: a stage
factory with incremental input of type `I`, output style `o` and output type
`O`.  Its `make<Opaque, Next>(next)` builds `Aco<Opaque, ...>{next, parameters_}`. -/
structure range_action (W I : Type) (o : processing_style) (O : Type) : Type 1 where
  /-- Method `make<Opaque, Next>(Next&& next)`. -/
  make : (R : Type) → aco o W O R → incremental_aco W I R

/-- The struct `for_each_impl`: `process_incremental` calls `f(input)`,
`finish` returns `next.process_complete(std::monostate{})`. -/
def for_each_impl {W I R : Type} (f : I → W → Unit × W)
    (next : complete_aco W Unit R) : incremental_aco W I R where
  Obj := Unit
  obj := ()
  process_incremental := fun o input w => (o, (f input w).2)
  finish := fun _ w => next.process_complete () w

/-- The factory `for_each(F f)`: incremental input, complete output of type
`std::monostate`. -/
def for_each {W I : Type} (f : I → W → Unit × W) :
    range_action W I .complete Unit where
  make := fun _ next => for_each_impl f next

/-- The struct `accumulate_in_place_impl`: the member `accumulated` is the
state; `process_incremental` runs `std::invoke(f, accumulated, input)`, which
updates `accumulated` in place (here: returns its new value); `finish` returns
`next.process_complete(std::move(accumulated))`. -/
def accumulate_in_place_impl {W I A R : Type} (accumulated : A)
    (f : A → I → W → A × W) (next : complete_aco W A R) :
    incremental_aco W I R where
  Obj := A
  obj := accumulated
  process_incremental := fun acc input w => f acc input w
  finish := fun acc w => next.process_complete acc w

/-- The value-initialised object `T{}` of a type, as used for the member
`accumulated{}`. -/
class value_initialised (T : Type) where
  /-- The value `T{}`. -/
  value : T

/-- An arithmetic type is value-initialised to zero. -/
instance value_initialised.arithmetic {T : Type} [Zero T] : value_initialised T where
  value := 0

/-- A `std::vector` is value-initialised to the empty vector. -/
instance value_initialised.vector {T : Type} : value_initialised (List T) where
  value := []

/-- The overload `accumulate_in_place<T>(F f)`, with a template `T`: the
accumulator type `A` is `T<input_type>` without cv and reference, and the
accumulator starts value-initialised. -/
def accumulate_in_place {W I : Type} (A : Type) [value_initialised A]
    (f : A → I → W → A × W) : range_action W I .complete A where
  make := fun _ next => accumulate_in_place_impl value_initialised.value f next

/-- The overload `accumulate<T>(F f)`, with a template `T`: the step is
`accumulated = std::invoke(f, accumulated, v)`. -/
def accumulate {W I : Type} (A : Type) [value_initialised A]
    (f : A → I → W → A × W) : range_action W I .complete A :=
  accumulate_in_place A (fun accumulated v w => f accumulated v w)

/-- The function object `std::plus<>{}`; it has no side effect. -/
def std.plus {W T : Type} [Add T] : T → T → W → T × W :=
  fun a b w => (a + b, w)

/-- The factory `sum()`, that is `accumulate<std::type_identity_t>(std::plus<>{})`:
the accumulator has the element type. -/
def sum {W T : Type} [Zero T] [Add T] : range_action W T .complete T :=
  accumulate T std.plus

/-- The struct `filter_impl`: `process_incremental` invokes the predicate on
the input and forwards the input to `next.process_incremental` when it holds;
`finish` is inherited from `range_action_impl` and returns `next.finish()`. -/
def filter_impl {W I R : Type} (predicate : I → W → Bool × W)
    (next : incremental_aco W I R) : incremental_aco W I R where
  Obj := next.Obj
  obj := next.obj
  process_incremental := fun o input w =>
    let b := predicate input w
    if b.1 then next.process_incremental o input b.2 else (o, b.2)
  finish := fun o w => next.finish o w

/-- The factory `filter(Predicate predicate)`: incremental input and output. -/
def filter {W I : Type} (predicate : I → W → Bool × W) :
    range_action W I .incremental I where
  make := fun _ next => filter_impl predicate next

/-- The factory `to_vector()`: `accumulate_in_place<vector_impl>` with the
step `c.push_back(v)`. -/
def to_vector {W I : Type} : range_action W I .complete (List I) :=
  accumulate_in_place (List I) (fun c v w => (c ++ [v], w))

/-- A callable without side effects, as a callable of the embedding. -/
def pure_callable {W A B : Type} (g : A → B) : A → W → B × W :=
  fun a w => (g a, w)

/-- The start of every factory chain, `detail::starting_previous`: `make(next)`
returns `next`. -/
def detail.starting_previous.make {W Range R : Type}
    (next : complete_aco W Range R) : complete_aco W Range R :=
  next

/-- The factory `detail::starting_factory<Input>`: input and output style
`complete`, output type `Input`, and `make<_, Next>(next)` returns `next`. -/
def detail.starting_factory.make {W Range R : Type}
    (next : complete_aco W Range R) : complete_aco W Range R :=
  next

/-- The struct `detail::input_factory<Input, PreviousOutputProcessingStyle,
Factory, Previous>`.  It holds references to `factory` and `previous` only, and
the chain is obtained from it by `make(next)` alone, so it is represented by
that method: `s` and `Output` are its `output_processing_style` and
`output_type`, and `Range` is the input type of the first factory. -/
structure detail.input_factory (W Range : Type) (s : processing_style)
    (Output : Type) : Type 1 where
  /-- Method `make(Next&& next)`. -/
  make : (R : Type) → aco s W Output R → complete_aco W Range R

/-- The first factory of `apply`,
`input_factory<decltype(range), complete>{starting_factory, empty}`: its
`make(next)` is `previous.make(factory.make<...>(next))`. -/
def detail.input_factory.start {W Range : Type} :
    detail.input_factory W Range .complete Range where
  make := fun _ next =>
    detail.starting_previous.make (detail.starting_factory.make next)

/-- The `operator+(NewFactory&&)` of an `input_factory` whose output is
incremental, followed by `make`: `previous.make(factory.make<...>(next))`.
The new stage receives the elements through `process_incremental`. -/
def detail.input_factory.plus_after_incremental {W Range I O : Type}
    {o : processing_style} (self : detail.input_factory W Range .incremental I)
    (new_factory : range_action W I o O) : detail.input_factory W Range o O where
  make := fun R next => self.make R (new_factory.make R next)

/-- The `operator+(NewFactory&&)` of an `input_factory` whose output is
complete, followed by `make`: `previous.make(factory.make<...>(next))`.  The
new stage has incremental input, its `input_type` is
`adapt_input_t<Input, complete, incremental>`, the element type of the
previous output, and the previous stage reaches it through
`range_action_impl::process_complete(raw_input_type)`. -/
def detail.input_factory.plus_after_complete {W Range I O : Type}
    {o : processing_style} (self : detail.input_factory W Range .complete (List I))
    (new_factory : range_action W I o O) : detail.input_factory W Range o O where
  make := fun R next =>
    self.make R (range_action_impl.process_complete (new_factory.make R next))

/-- The parameter pack `Acos...` of `apply` and `Ts...` of `compose`: the
stage factories in the order written, typed by the style and type that flow
into the first and out of the last of them.  An element is a `range_action`
placed after an incremental output, a `range_action` placed after a complete
output, or a `composed` object, represented by the pack `args...` that the
lambda of `compose` has captured. -/
inductive pack (W : Type) :
    processing_style → Type → processing_style → Type → Type 1 where
  | nil {s : processing_style} {X : Type} : pack W s X s X
  | after_incremental {I O X2 : Type} {o s2 : processing_style}
      (a : range_action W I o O) (rest : pack W o O s2 X2) :
      pack W .incremental I s2 X2
  | after_complete {I O X2 : Type} {o s2 : processing_style}
      (a : range_action W I o O) (rest : pack W o O s2 X2) :
      pack W .complete (List I) s2 X2
  | composed {X X1 X2 : Type} {s s1 s2 : processing_style}
      (args : pack W s X s1 X1) (rest : pack W s1 X1 s2 X2) :
      pack W s X s2 X2

/-- The left fold `(init + ... + acos)` over a pack.  For a `composed` element
the overload `operator+(composed<F>&&)` applies: it stores a
`composed_factory`, and `make(next)` of the result takes the branch
`factory(previous, next)`, which through `composed_factory::operator()` and
`composed::operator()` runs the lambda of `compose` with one `next`:
`(prev + ... + args).make(next)`. -/
def detail.input_factory.fold_plus {W Range : Type} :
    {s : processing_style} → {X : Type} → {s2 : processing_style} → {X2 : Type} →
    pack W s X s2 X2 → detail.input_factory W Range s X →
    detail.input_factory W Range s2 X2
  | _, _, _, _, .nil, init => init
  | _, _, _, _, .after_incremental a rest, init =>
      fold_plus rest (init.plus_after_incremental a)
  | _, _, _, _, .after_complete a rest, init =>
      fold_plus rest (init.plus_after_complete a)
  | _, _, _, _, .composed args rest, init =>
      fold_plus rest ⟨fun R next => (fold_plus args init).make R next⟩

/-- The function `compose(Ts&&... ts)`: a `composed` object whose lambda has
captured `ts...`, as one element of a pack. -/
def compose {W X X1 : Type} {s s1 : processing_style}
    (ts : pack W s X s1 X1) : pack W s X s1 X1 :=
  .composed ts .nil

/-- The function `apply(Range&& range, Acos&&... acos)`: the chain is
`(input_factory{starting_factory, empty} + ... + acos).make(end_aco{})` and
the result is `chain.process_complete(range)`. -/
def apply {W Range R : Type} (range : Range)
    (acos : pack W .complete Range .complete R) (w : W) : R × W :=
  let chain :=
    (detail.input_factory.fold_plus acos detail.input_factory.start).make R
      detail.end_aco
  chain.process_complete range w

/-- Concatenation of two packs, the stages of the first followed by the
stages of the second. -/
def pack.append {W : Type} :
    {s : processing_style} → {X : Type} → {s1 : processing_style} → {X1 : Type} →
    {s2 : processing_style} → {X2 : Type} →
    pack W s X s1 X1 → pack W s1 X1 s2 X2 → pack W s X s2 X2
  | _, _, _, _, _, _, .nil, q => q
  | _, _, _, _, _, _, .after_incremental a rest, q =>
      .after_incremental a (append rest q)
  | _, _, _, _, _, _, .after_complete a rest, q =>
      .after_complete a (append rest q)
  | _, _, _, _, _, _, .composed args rest, q =>
      .composed args (append rest q)

/-- The chain object that the stages of a pack build in front of `next`, as
it is reached by a predecessor whose output has the style and type flowing
into the pack.  It states in closed form what `fold_plus` followed by `make`
constructs, and is used to reason about it. -/
def pack.chain {W : Type} :
    {s : processing_style} → {X : Type} → {s2 : processing_style} → {X2 : Type} →
    pack W s X s2 X2 → (R : Type) → aco s2 W X2 R → aco s W X R
  | _, _, _, _, .nil, _, next => next
  | _, _, _, _, .after_incremental a rest, R, next =>
      a.make R (pack.chain rest R next)
  | _, _, _, _, .after_complete a rest, R, next =>
      range_action_impl.process_complete (a.make R (pack.chain rest R next))
  | _, _, _, _, .composed args rest, R, next =>
      pack.chain args R (pack.chain rest R next)

/-- The function `calculate()` of `main.cpp`. -/
def calculate : Int :=
  let v : List Int := [1, 2, 3, 4]
  let t := compose (W := Unit)
    (.after_incremental (filter (pure_callable (fun i : Int => decide (i ≠ 2))))
      (.after_incremental sum .nil))
  (apply v
    (.after_complete (filter (pure_callable (fun _ : Int => true))) t) ()).1

/-- A callable `f` that records each argument it is called with: the world is
the list of the arguments of the calls made so far, in the order of the calls. -/
def recording_callable {I : Type} : I → List I → Unit × List I :=
  fun x calls => ((), calls ++ [x])

/-- A call of one of the two user callables of a pipeline `filter(p)`,
`for_each(f)`, with its argument. -/
inductive call (I : Type) where
  | predicate (x : I)
  | callable (x : I)
  deriving DecidableEq, Repr

/-- The predicate `p` with the answers of `q`, recording each of its calls:
the world is the list of the calls made so far, in the order of the calls. -/
def recording_predicate {I : Type} (q : I → Bool) :
    I → List (call I) → Bool × List (call I) :=
  fun x calls => (q x, calls ++ [call.predicate x])

/-- The callable `f` of `for_each`, recording each of its calls in the same
list of calls. -/
def recording_for_each {I : Type} : I → List (call I) → Unit × List (call I) :=
  fun x calls => ((), calls ++ [call.callable x])

/-- The calls expected of a lazy pipeline: for each element `x` of `r` in
order, `p` on `x`, followed by `f` on `x` when `p` held, before the next
element is looked at. -/
def interleaved_calls {I : Type} (q : I → Bool) : List I → List (call I)
  | [] => []
  | x :: r =>
    if q x then call.predicate x :: call.callable x :: interleaved_calls q r
    else call.predicate x :: interleaved_calls q r

/-- The arguments of the calls of `p` within a list of calls, in order. -/
def predicate_calls {I : Type} : List (call I) → List I
  | [] => []
  | call.predicate x :: calls => x :: predicate_calls calls
  | call.callable _ :: calls => predicate_calls calls

end ranges.actions

namespace meta_struct_20.cppcon_version

/-- The value types that occur as member and argument types of a program:
a set of type names `Ty`, the values of each type, the direct-initialisation
`T(std::move(v))` of a `T` from a value of type `OtherT` (absent when `T` is
not constructible from `OtherT`), and the value-initialised `T{}` (absent
when `T` is not default constructible). -/
class type_system (Ty : Type) where
  /-- The values of a type. -/
  denote : Ty → Type
  /-- Direct-initialisation of a `T` from an `OtherT`. -/
  construct : (OtherT T : Ty) → Option (denote OtherT → denote T)
  /-- The value `T{}`. -/
  value_init : (T : Ty) → Option (denote T)
  /-- The state in which an object of type `T` is left when it has been
  moved from. -/
  moved_from : (T : Ty) → denote T → denote T
  /-- Initialising a `T` from a prvalue of type `T` gives that value. -/
  construct_same : ∀ T : Ty, construct T T = some (fun v => v)

/-- A value together with its type. -/
abbrev value (Ty : Type) [type_system Ty] : Type :=
  (T : Ty) × type_system.denote T

/-- The struct `tag_and_value<Tag, T>`, an object with its template arguments. -/
structure tag_and_value (Ty : Type) [type_system Ty] where
  /-- Template argument `Tag`. -/
  Tag : String
  /-- Template argument `T`. -/
  T : Ty
  /-- Member `value`. -/
  value : type_system.denote T

/-- The implicit move constructor of `tag_and_value<Tag, T>` leaves its source
with a moved-from `value`. -/
def tag_and_value.moved_from {Ty : Type} [type_system Ty]
    (tv : tag_and_value Ty) : tag_and_value Ty :=
  ⟨tv.Tag, tv.T, type_system.moved_from tv.T tv.value⟩

/-- The struct `parms<TagsAndValues...>`: its base subobjects, in the order of
the base-specifier list. -/
structure parms (Ty : Type) [type_system Ty] where
  /-- The base subobjects `TagsAndValues...`. -/
  bases : List (tag_and_value Ty)

/-- The expression `arg<Tag> = t`, that is `arg_type<Tag>::operator=(T t)`. -/
def arg {Ty : Type} [type_system Ty] (Tag : String) (T : Ty)
    (t : type_system.denote T) : tag_and_value Ty :=
  ⟨Tag, T, t⟩

/-- Template argument deduction of a parameter `X<tag, U>` (with `U` deduced)
against an object of a class derived from `bases`: the deduction succeeds
when exactly one base matches, and selects that base. -/
def deduce_base {B : Type} (is_match : B → Bool) (bases : List B) : Option B :=
  match bases.filter is_match with
  | [b] => some b
  | _ => none

namespace tagged_tuple_constructed_2

/-- The type `member<Tag, T>` of `tagged_tuple_constructed_2.cpp`. -/
structure member_type (Ty : Type) where
  /-- Template argument `Tag`. -/
  Tag : String
  /-- Template argument `T`. -/
  T : Ty

/-- An object of a type `member<Tag, T>`. -/
structure member (Ty : Type) [type_system Ty] where
  /-- The static `tag()`. -/
  Tag : String
  /-- The `element_type`. -/
  T : Ty
  /-- Member `value`. -/
  value : type_system.denote T

/-- The constructor `member(tag_and_value<Tag, OtherT> tv)` called with
`std::move(p)` for a `parms` object `p`: `OtherT` is deduced from the one base
of `p` whose tag is `Tag`, the parameter `tv` is move-constructed from that
base, and `value` is initialised from `std::move(tv.value)`.  The result is
the member and `p` as the call leaves it, with the base moved from. -/
def member.from_parms {Ty : Type} [type_system Ty] (M : member_type Ty)
    (p : parms Ty) : Option (member Ty × parms Ty) :=
  match deduce_base (fun tv => decide (tv.Tag = M.Tag)) p.bases with
  | none => none
  | some tv =>
    match type_system.construct tv.T M.T with
    | none => none
    | some conv =>
      some (⟨M.Tag, M.T, conv tv.value⟩,
        ⟨p.bases.map (fun b => if b.Tag = M.Tag then b.moved_from else b)⟩)

/-- The constructor `meta_struct_impl(Parms p) : Members(std::move(p))...`:
the base subobjects are initialised in declaration order, each from `p` as
the earlier initialisations have left it.  The result is the list of base
subobjects; it is absent when one of the member initialisations is
ill-formed. -/
def meta_struct_impl.from_parms {Ty : Type} [type_system Ty] :
    List (member_type Ty) → parms Ty → Option (List (member Ty))
  | [], _ => some []
  | M :: Members, p =>
    match member.from_parms M p with
    | none => none
    | some (m, p1) =>
      match meta_struct_impl.from_parms Members p1 with
      | none => none
      | some ms => some (m :: ms)

/-- The constructor `meta_struct(TagsAndValues... tags_and_values)`:
`super(parms(std::move(tags_and_values)...))`. -/
def meta_struct.from_args {Ty : Type} [type_system Ty]
    (Members : List (member_type Ty)) (tags_and_values : List (tag_and_value Ty)) :
    Option (List (member Ty)) :=
  meta_struct_impl.from_parms Members ⟨tags_and_values⟩

/-- The function `get_impl<tag>(member<tag, T>& m)`: returns `m.value`. -/
def get_impl {Ty : Type} [type_system Ty] (m : member Ty) : value Ty :=
  ⟨m.T, m.value⟩

/-- The function `get<tag>(s)`: `get_impl<tag>(s)`, where `T` is deduced from
the one base `member<tag, T>` of `s`. -/
def get {Ty : Type} [type_system Ty] (tag : String) (s : List (member Ty)) :
    Option (value Ty) :=
  match deduce_base (fun m => decide (m.Tag = tag)) s with
  | none => none
  | some m => some (get_impl m)

end tagged_tuple_constructed_2

/-- The value types used by the two `main` functions: `int`, `std::string`,
and `const char*` for a decayed string literal (a value is the text pointed
to; a null pointer is not represented). -/
inductive main_type where
  | int
  | std_string
  | const_char_ptr
  deriving DecidableEq, Repr

/-- The types of `main`: an `int` is initialised from an `int`, a
`std::string` from a `std::string` or from a `const char*`, a `const char*`
from a `const char*`; `int{}` is `0` and `std::string{}` is empty; a moved-from
`int` or pointer keeps its value, and a moved-from `std::string` is taken to
be empty. -/
instance main_type.type_system : type_system main_type where
  denote := fun
    | .int => Int
    | .std_string => String
    | .const_char_ptr => String
  construct := fun
    | .int, .int => some (fun v => v)
    | .std_string, .std_string => some (fun v => v)
    | .const_char_ptr, .std_string => some (fun v => v)
    | .const_char_ptr, .const_char_ptr => some (fun v => v)
    | _, _ => none
  value_init := fun
    | .int => some (0 : Int)
    | .std_string => some ""
    | .const_char_ptr => none
  moved_from := fun
    | .int => fun v => v
    | .std_string => fun _ => ""
    | .const_char_ptr => fun v => v
  construct_same := by
    intro T
    cases T <;> rfl

/-- An `int` of `main` as an integer. -/
def as_int (v : type_system.denote main_type.int) : Int :=
  v

/-- An integer as a value of type `int`. -/
def int_value (i : Int) : value main_type :=
  ⟨.int, i⟩

namespace tagged_tuple_constructed_2

/-- The alias `Person` of `main`:
`meta_struct<member<"id", int>, member<"name", std::string>>`. -/
def Person : List (member_type main_type) :=
  [⟨"id", .int⟩, ⟨"name", .std_string⟩]

/-- The object `Person{arg<"id"> = 1, arg<"name"> = "John"}` of `main`. -/
def main_p : Option (List (member main_type)) :=
  meta_struct.from_args Person
    [arg "id" main_type.int (1 : Int), arg "name" main_type.const_char_ptr "John"]

/-- The object `Person{arg<"name"> = "John", arg<"id"> = 1}` of `main`. -/
def main_p_assigned : Option (List (member main_type)) :=
  meta_struct.from_args Person
    [arg "name" main_type.const_char_ptr "John", arg "id" main_type.int (1 : Int)]

end tagged_tuple_constructed_2

namespace meta_struct_print_5

/-- An object of a type `member<Tag, T, Init>`. -/
structure member (Ty : Type) [type_system Ty] where
  /-- The static `tag()`. -/
  Tag : String
  /-- The `element_type`. -/
  T : Ty
  /-- Member `value`. -/
  value : type_system.denote T

/-- A callable given as the template argument `Init`.  It is called as `f()`
(the result is absent when `f()` has type `void`), or as `f(self)` with the
struct under construction, which is represented by the list of its base
subobjects whose initialisation has completed, in declaration order; the
result of `f(self)` is absent when `f` reads a member that has no value yet. -/
inductive init_callable (Ty : Type) [type_system Ty] where
  | nullary (result : Option (value Ty))
  | unary (f : List (member Ty) → Option (value Ty))

/-- The struct `default_init<T>`: `operator()` returns `T{}` when `T` is
default constructible and nothing otherwise. -/
def default_init {Ty : Type} [type_system Ty] (T : Ty) : init_callable Ty :=
  .nullary
    (match type_system.value_init T with
     | some v => some ⟨T, v⟩
     | none => none)

/-- The type `member<Tag, T, Init>` of `meta_struct_print_5.cpp`; `Init`
defaults to `default_init<T>()`. -/
structure member_type (Ty : Type) [type_system Ty] where
  /-- Template argument `Tag`. -/
  Tag : String
  /-- Template argument `T`. -/
  T : Ty
  /-- Template argument `Init`. -/
  Init : init_callable Ty := default_init T

/-- The overloads of `call_init<T>(self, f)`: `f()` when that is convertible
to `T`, `f(self)` when that is convertible to `T`; when `f()` is `void` the
third overload returns nothing, and no value is obtained. -/
def call_init {Ty : Type} [type_system Ty] (T : Ty) (self : List (member Ty))
    (f : init_callable Ty) : Option (value Ty) :=
  match f with
  | .nullary result =>
    match result with
    | none => none
    | some v => if (type_system.construct v.1 T).isSome then some v else none
  | .unary g =>
    match g self with
    | none => none
    | some v => if (type_system.construct v.1 T).isSome then some v else none

/-- The constructor `member(Self& self) : value(call_init<T>(self, Init))`. -/
def member.from_self {Ty : Type} [type_system Ty] (M : member_type Ty)
    (self : List (member Ty)) : Option (member Ty) :=
  match call_init M.T self M.Init with
  | none => none
  | some v =>
    match type_system.construct v.1 M.T with
    | none => none
    | some conv => some ⟨M.Tag, M.T, conv v.2⟩

/-- The default constructor `meta_struct_impl() : Members(*this)...`, from
the point where the base subobjects `self` are initialised and `Members`
remain: the remaining base subobjects are initialised in declaration order,
each from the struct itself.  The result is absent when an initialisation is
ill-formed or reads a member that has no value yet. -/
def meta_struct_impl.init_bases {Ty : Type} [type_system Ty] :
    List (member_type Ty) → List (member Ty) → Option (List (member Ty))
  | [], self => some self
  | M :: Members, self =>
    match member.from_self M self with
    | none => none
    | some m => meta_struct_impl.init_bases Members (self ++ [m])

/-- The default constructor `meta_struct()` (defaulted), which runs
`meta_struct_impl() : Members(*this)...`. -/
def meta_struct.default_ctor {Ty : Type} [type_system Ty]
    (Members : List (member_type Ty)) : Option (List (member Ty)) :=
  meta_struct_impl.init_bases Members []

/-- The function `get_impl<tag>(member<tag, T, Init>& m)`: returns `m.value`. -/
def get_impl {Ty : Type} [type_system Ty] (m : member Ty) : value Ty :=
  ⟨m.T, m.value⟩

/-- The function `get<tag>(s)`: `get_impl<tag>(s)`, where `T` and `Init` are
deduced from the one base `member<tag, T, Init>` of `s`. -/
def get {Ty : Type} [type_system Ty] (tag : String) (s : List (member Ty)) :
    Option (value Ty) :=
  match deduce_base (fun m => decide (m.Tag = tag)) s with
  | none => none
  | some m => some (get_impl m)

/-- An initializer `f` reads only the members with the given tags: what it
returns is determined by what `get<tag>` returns for these tags. -/
def reads_only {Ty : Type} [type_system Ty] (tags : List String)
    (f : List (member Ty) → Option (value Ty)) : Prop :=
  ∀ s1 s2 : List (member Ty), (∀ tag ∈ tags, get tag s1 = get tag s2) → f s1 = f s2

/-- A pointer of type `M*`: its pointee type, and the object it points to,
which is absent for a null pointer. -/
structure member_pointer (Ty : Type) [type_system Ty] where
  /-- The pointee type `M`. -/
  M : member_type Ty
  /-- The object pointed to. -/
  pointee : Option (member Ty)

/-- The function `apply_static_impl<meta_struct_impl<MembersImpl...>>::apply(f)`:
`f(static_cast<MembersImpl*>(nullptr)...)`. -/
def apply_static_impl.apply {Ty R : Type} [type_system Ty]
    (MembersImpl : List (member_type Ty)) (f : List (member_pointer Ty) → R) : R :=
  f (MembersImpl.map (fun M => ⟨M, none⟩))

/-- The function `meta_struct_apply<MetaStruct>(f)`:
`apply_static_impl<typename MetaStruct::super>::apply(f)`. -/
def meta_struct_apply {Ty R : Type} [type_system Ty]
    (MetaStruct : List (member_type Ty)) (f : List (member_pointer Ty) → R) : R :=
  apply_static_impl.apply MetaStruct f

/-- The initializer of `score` in `main`:
`[](auto& self) { return get<"id">(self) + 1; }`, where `get<"id">(self)` is
an `int`. -/
def score_init (self : List (member main_type)) : Option (value main_type) :=
  match get "id" self with
  | some ⟨.int, v⟩ => some (int_value (as_int v + 1))
  | _ => none

/-- The initializer of `name` in `main`: `[] { return "John"; }`. -/
def name_init : Option (value main_type) :=
  some ⟨.const_char_ptr, "John"⟩

/-- The alias `Person` of `main`: `member<"id", int>`,
`member<"score", int, [](auto& self) { return get<"id">(self) + 1; }>` and
`member<"name", std::string, [] { return "John"; }>`. -/
def Person : List (member_type main_type) :=
  [ { Tag := "id", T := .int },
    { Tag := "score", T := .int, Init := .unary score_init },
    { Tag := "name", T := .std_string, Init := .nullary name_init } ]

/-- The lambda given to `meta_struct_apply<Person>` in `main`, with the text
it writes to `std::cout` appended to `out`: `"The tags are: "`, then
`M::tag()` and a blank for each parameter from left to right, then a newline. -/
def main_print_tags {Ty : Type} [type_system Ty]
    (ptrs : List (member_pointer Ty)) (out : String) : String :=
  (ptrs.foldl (fun o ptr => o ++ ptr.M.Tag ++ " ") (out ++ "The tags are: ")) ++ "\n"

end meta_struct_print_5

end meta_struct_20.cppcon_version

namespace ranges.actions

/-! ## Lemmas on the chain objects -/

theorem process_complete_filter_pure {W I R : Type} (p : I → Bool)
    (next : incremental_aco W I R) (r : List I) (w : W) :
    (range_action_impl.process_complete
        (filter_impl (pure_callable p) next)).process_complete r w
      = (range_action_impl.process_complete next).process_complete (r.filter p) w := by
  simp only [range_action_impl.process_complete, filter_impl, pure_callable]
  generalize next.obj = o
  induction r generalizing o w with
  | nil => rfl
  | cons x xs ih =>
    simp only [List.foldl_cons, List.filter_cons]
    cases h : p x
    · simp [ih]
    · simp [ih]

theorem process_complete_accumulate_pure {W I A R : Type} (a : A) (g : A → I → A)
    (next : complete_aco W A R) (r : List I) (w : W) :
    (range_action_impl.process_complete
        (accumulate_in_place_impl a (fun acc v w1 => (g acc v, w1)) next)).process_complete r w
      = next.process_complete (r.foldl g a) w := by
  simp only [range_action_impl.process_complete, accumulate_in_place_impl]
  induction r generalizing a with
  | nil => rfl
  | cons x xs ih => simpa only [List.foldl_cons] using ih (g a x)

theorem process_complete_for_each {W I R : Type} (f : I → W → Unit × W)
    (next : complete_aco W Unit R) (r : List I) (w : W) :
    (range_action_impl.process_complete (for_each_impl f next)).process_complete r w
      = next.process_complete () (r.foldl (fun w1 x => (f x w1).2) w) := by
  simp only [range_action_impl.process_complete, for_each_impl]
  induction r generalizing w with
  | nil => rfl
  | cons x xs ih => simpa only [List.foldl_cons] using ih (f x w).2

theorem foldl_push_back {I : Type} (c r : List I) :
    r.foldl (fun c v => c ++ [v]) c = c ++ r := by
  induction r generalizing c with
  | nil => simp
  | cons x xs ih => simp [ih]

/-! ## Lemmas on the factory chain -/

theorem fold_plus_make {W Range : Type} {s : processing_style} {X : Type}
    {s2 : processing_style} {X2 : Type} (acos : pack W s X s2 X2)
    (init : detail.input_factory W Range s X) (R : Type) (next : aco s2 W X2 R) :
    (detail.input_factory.fold_plus acos init).make R next
      = init.make R (acos.chain R next) := by
  induction acos generalizing R with
  | nil => rfl
  | after_incremental a rest ih =>
    simp only [detail.input_factory.fold_plus, pack.chain, ih]
    rfl
  | after_complete a rest ih =>
    simp only [detail.input_factory.fold_plus, pack.chain, ih]
    rfl
  | composed args rest ih1 ih2 =>
    simp only [detail.input_factory.fold_plus, pack.chain, ih2, ih1]

theorem apply_eq_chain {W Range R : Type} (range : Range)
    (acos : pack W .complete Range .complete R) (w : W) :
    apply range acos w
      = (acos.chain R detail.end_aco).process_complete range w := by
  simp only [apply, fold_plus_make]
  rfl

theorem chain_append {W : Type} {s : processing_style} {X : Type}
    {s1 : processing_style} {X1 : Type} {s2 : processing_style} {X2 : Type}
    (p : pack W s X s1 X1) (q : pack W s1 X1 s2 X2) (R : Type)
    (next : aco s2 W X2 R) :
    (p.append q).chain R next = p.chain R (q.chain R next) := by
  induction p with
  | nil => rfl
  | after_incremental a rest ih => simp only [pack.append, pack.chain, ih]
  | after_complete a rest ih => simp only [pack.append, pack.chain, ih]
  | composed args rest _ ih2 => simp only [pack.append, pack.chain, ih2]

/-! ## The claims on the pipeline -/

/-- C1. For every element type with an addition and a zero, every finite
range `r` and every predicate `p`, `apply(r, filter(p), sum())` returns the
elements of `r` that satisfy `p` added up from the value-initialised
accumulator `0`; over the integers this is their sum; the result is `0` for
an empty range and when no element satisfies `p`; and `calculate()` is `8`. -/
theorem apply_filter_sum :
    (∀ (W T : Type) [Zero T] [Add T] (r : List T) (p : T → Bool) (w : W),
      apply r (.after_complete (filter (pure_callable p))
          (.after_incremental sum .nil)) w
        = ((r.filter p).foldl (fun acc v => acc + v) 0, w))
    ∧ (∀ (W : Type) (r : List Int) (p : Int → Bool) (w : W),
      apply r (.after_complete (filter (pure_callable p))
          (.after_incremental sum .nil)) w
        = ((r.filter p).sum, w))
    ∧ (∀ (W : Type) (p : Int → Bool) (w : W),
      apply ([] : List Int) (.after_complete (filter (pure_callable p))
          (.after_incremental sum .nil)) w
        = (0, w))
    ∧ (∀ (W : Type) (r : List Int) (w : W),
      apply r (.after_complete (filter (pure_callable (fun _ => false)))
          (.after_incremental sum .nil)) w
        = (0, w))
    ∧ calculate = 8 := by
  have key : ∀ (W T : Type) [Zero T] [Add T] (r : List T) (p : T → Bool) (w : W),
      apply r (.after_complete (filter (pure_callable p))
          (.after_incremental sum .nil)) w
        = ((r.filter p).foldl (fun acc v => acc + v) 0, w) := by
    intro W T _ _ r p w
    rw [apply_eq_chain]
    simp only [pack.chain, filter, sum, accumulate, accumulate_in_place, std.plus]
    rw [process_complete_filter_pure, process_complete_accumulate_pure]
    rfl
  refine ⟨key, ?_, ?_, ?_, by decide⟩
  · intro W r p w
    rw [key, List.sum_eq_foldl]
  · intro W p w
    rw [key]
    rfl
  · intro W r w
    rw [key]
    simp

/-- C3. For every finite range `r` and predicate `p`,
`apply(r, filter(p), to_vector())` returns the vector of the elements of `r`
that satisfy `p`, each once and in their original order; `{1,2,3,4}` with
`i != 2` gives `{1,3,4}`. -/
theorem filter_to_vector_collects :
    (∀ (W I : Type) (r : List I) (p : I → Bool) (w : W),
      apply r (.after_complete (filter (pure_callable p))
          (.after_incremental to_vector .nil)) w
        = (r.filter p, w))
    ∧ apply ([1, 2, 3, 4] : List Int)
        (.after_complete (filter (pure_callable (fun i => decide (i ≠ 2))))
          (.after_incremental to_vector .nil)) ()
        = ([1, 3, 4], ()) := by
  have key : ∀ (W I : Type) (r : List I) (p : I → Bool) (w : W),
      apply r (.after_complete (filter (pure_callable p))
          (.after_incremental to_vector .nil)) w
        = (r.filter p, w) := by
    intro W I r p w
    rw [apply_eq_chain]
    simp only [pack.chain, filter, to_vector, accumulate_in_place]
    rw [process_complete_filter_pure, process_complete_accumulate_pure,
      foldl_push_back]
    rfl
  exact ⟨key, by decide⟩

/-- C2. The function `compose` is transparent: for every range `r` and all
stages (or groups of stages) `a`, `b`, `c`, and every further group `d`,
`apply(r, a..., compose(b..., c...), d...)` returns the same result, with the
same effects, as `apply(r, a..., b..., c..., d...)`; in particular
`apply(r, a, compose(b, c))` equals `apply(r, a, b, c)`, as for the three
stages of `calculate()`. -/
theorem compose_transparent {W Range R X1 X2 X3 : Type}
    {s1 s2 s3 : processing_style}
    (a : pack W .complete Range s1 X1) (b : pack W s1 X1 s2 X2)
    (c : pack W s2 X2 s3 X3) (d : pack W s3 X3 .complete R)
    (r : Range) (w : W) :
    apply r (a.append ((compose (b.append c)).append d)) w
        = apply r (a.append (b.append (c.append d))) w
    ∧ (∀ (c0 : pack W s2 X2 .complete R),
        apply r (a.append (compose (b.append c0))) w
          = apply r (a.append (b.append c0)) w)
    ∧ (∀ (I I1 I2 : Type) (r0 : List I) (a0 : range_action W I .incremental I1)
        (b0 : range_action W I1 .incremental I2)
        (c0 : range_action W I2 .complete R),
        apply r0 (.after_complete a0
            (compose (.after_incremental b0 (.after_incremental c0 .nil)))) w
          = apply r0 (.after_complete a0
            (.after_incremental b0 (.after_incremental c0 .nil))) w) := by
  refine ⟨?_, ?_, ?_⟩
  · simp only [apply_eq_chain, chain_append, compose, pack.chain]
  · intro c0
    simp only [apply_eq_chain, chain_append, compose, pack.chain]
  · intro I I1 I2 r0 a0 b0 c0
    simp only [apply_eq_chain, compose, pack.chain]

/-- C7. Adaptation from complete to incremental processing preserves results:
for every range `r` and every stage sequence `s` working on the elements of
`r`, `apply(r, to_vector(), s...)` gives the same result, with the same
effects, as `apply(r, s...)`; and for a predicate `p` and stages `a`, `s...`,
`apply(r, filter(p), to_vector(), a, s...)` equals
`apply(r, filter(p), a, s...)`, for example with `a = sum()`. -/
theorem to_vector_adaptation :
    (∀ (W I R : Type) (s : pack W .complete (List I) .complete R)
        (r : List I) (w : W),
      apply r (.after_complete to_vector s) w = apply r s w)
    ∧ (∀ (W I O R : Type) (p : I → Bool) (a : range_action W I .complete O)
        (s : pack W .complete O .complete R) (r : List I) (w : W),
      apply r (.after_complete (filter (pure_callable p))
          (.after_incremental to_vector (.after_complete a s))) w
        = apply r (.after_complete (filter (pure_callable p))
          (.after_incremental a s)) w)
    ∧ (∀ (W : Type) (p : Int → Bool) (r : List Int) (w : W),
      apply r (.after_complete (filter (pure_callable p))
          (.after_incremental to_vector (.after_complete sum .nil))) w
        = apply r (.after_complete (filter (pure_callable p))
          (.after_incremental sum .nil)) w) := by
  have two : ∀ (W I O R : Type) (p : I → Bool) (a : range_action W I .complete O)
        (s : pack W .complete O .complete R) (r : List I) (w : W),
      apply r (.after_complete (filter (pure_callable p))
          (.after_incremental to_vector (.after_complete a s))) w
        = apply r (.after_complete (filter (pure_callable p))
          (.after_incremental a s)) w := by
    intro W I O R p a s r w
    simp only [apply_eq_chain, pack.chain, filter, to_vector, accumulate_in_place]
    rw [process_complete_filter_pure, process_complete_accumulate_pure,
      foldl_push_back, process_complete_filter_pure]
    rfl
  refine ⟨?_, two, ?_⟩
  · intro W I R s r w
    simp only [apply_eq_chain, pack.chain, to_vector, accumulate_in_place]
    rw [process_complete_accumulate_pure, foldl_push_back]
    rfl
  · intro W p r w
    exact two W Int Int Int p sum .nil r w

/-- C8. For every finite range `r`, predicate `p` and callable `f`,
`apply(r, filter(p), to_vector(), for_each(f))` has the effect of calling `f`
on the elements of `r` that satisfy `p`, one call each, in the order of `r`,
and returns no value; with an `f` that records its calls, the calls recorded
are exactly those elements in order, and `{1,2,3,4}` with `i != 2` gives the
calls on `1`, `3`, `4`. -/
theorem filter_to_vector_for_each_calls :
    (∀ (W I : Type) (r : List I) (p : I → Bool) (f : I → W → Unit × W) (w : W),
      apply r (.after_complete (filter (pure_callable p))
          (.after_incremental to_vector (.after_complete (for_each f) .nil))) w
        = ((), (r.filter p).foldl (fun w1 x => (f x w1).2) w))
    ∧ (∀ (I : Type) (r : List I) (p : I → Bool) (calls : List I),
      apply r (.after_complete (filter (pure_callable p))
          (.after_incremental to_vector
            (.after_complete (for_each recording_callable) .nil))) calls
        = ((), calls ++ r.filter p))
    ∧ apply ([1, 2, 3, 4] : List Int)
        (.after_complete (filter (pure_callable (fun i => decide (i ≠ 2))))
          (.after_incremental to_vector
            (.after_complete (for_each recording_callable) .nil))) []
        = ((), [1, 3, 4]) := by
  have key : ∀ (W I : Type) (r : List I) (p : I → Bool) (f : I → W → Unit × W) (w : W),
      apply r (.after_complete (filter (pure_callable p))
          (.after_incremental to_vector (.after_complete (for_each f) .nil))) w
        = ((), (r.filter p).foldl (fun w1 x => (f x w1).2) w) := by
    intro W I r p f w
    simp only [apply_eq_chain, pack.chain, filter, to_vector, accumulate_in_place,
      for_each]
    rw [process_complete_filter_pure, process_complete_accumulate_pure,
      foldl_push_back, process_complete_for_each]
    rfl
  refine ⟨key, ?_, by decide⟩
  intro I r p calls
  rw [key]
  congr 1
  simp only [recording_callable]
  exact foldl_push_back calls (r.filter p)

theorem lazy_calls_from {I : Type} (q : I → Bool) (r : List I)
    (calls : List (call I)) :
    (range_action_impl.process_complete
        (filter_impl (recording_predicate q)
          (for_each_impl recording_for_each detail.end_aco))).process_complete r calls
      = ((), calls ++ interleaved_calls q r) := by
  have gen : ∀ (calls : List (call I)),
      List.foldl
        (fun (st : Unit × List (call I)) v =>
          if q v then (st.1, st.2 ++ [call.predicate v] ++ [call.callable v])
          else (st.1, st.2 ++ [call.predicate v]))
        ((), calls) r
      = ((), calls ++ interleaved_calls q r) := by
    induction r with
    | nil => intro calls; simp [interleaved_calls]
    | cons x xs ih =>
      intro calls
      simp only [List.foldl_cons, interleaved_calls]
      cases h : q x
      · simp only [Bool.false_eq_true, if_false]
        rw [ih]
        simp
      · simp only [if_true]
        rw [ih]
        simp
  simp only [range_action_impl.process_complete, filter_impl, for_each_impl,
    detail.end_aco, recording_predicate, recording_for_each]
  rw [gen]

theorem foldl_recording_for_each {I : Type} (l : List I) (calls : List (call I)) :
    l.foldl (fun w1 x => (recording_for_each x w1).2) calls
      = calls ++ l.map call.callable := by
  induction l generalizing calls with
  | nil => simp
  | cons x xs ih =>
    simp only [List.foldl_cons, List.map_cons]
    rw [ih]
    simp [recording_for_each]

theorem eager_filter_from {I R : Type} (q : I → Bool)
    (next : complete_aco (List (call I)) (List I) R) (r : List I)
    (calls : List (call I)) :
    (range_action_impl.process_complete
        (filter_impl (recording_predicate q)
          (accumulate_in_place_impl ([] : List I) (fun c v w => (c ++ [v], w))
            next))).process_complete r calls
      = next.process_complete (r.filter q) (calls ++ r.map call.predicate) := by
  have gen : ∀ (acc : List I) (calls : List (call I)),
      List.foldl
        (fun (st : List I × List (call I)) v =>
          if q v then (st.1 ++ [v], st.2 ++ [call.predicate v])
          else (st.1, st.2 ++ [call.predicate v]))
        (acc, calls) r
      = (acc ++ r.filter q, calls ++ r.map call.predicate) := by
    induction r with
    | nil => intro acc calls; simp
    | cons x xs ih =>
      intro acc calls
      simp only [List.foldl_cons, List.filter_cons, List.map_cons]
      cases h : q x
      · simp [ih]
      · simp [ih]
  simp only [range_action_impl.process_complete, filter_impl,
    accumulate_in_place_impl, recording_predicate]
  rw [gen]
  simp

theorem predicate_calls_interleaved {I : Type} (q : I → Bool) (r : List I) :
    predicate_calls (interleaved_calls q r) = r := by
  induction r with
  | nil => rfl
  | cons x xs ih =>
    cases h : q x <;> simp [interleaved_calls, predicate_calls, h, ih]

theorem predicate_calls_append {I : Type} (l1 l2 : List (call I)) :
    predicate_calls (l1 ++ l2) = predicate_calls l1 ++ predicate_calls l2 := by
  induction l1 with
  | nil => rfl
  | cons c cs ih => cases c <;> simp [predicate_calls, ih]

theorem predicate_calls_eager {I : Type} (q : I → Bool) (r : List I) :
    predicate_calls (r.map call.predicate ++ (r.filter q).map call.callable) = r := by
  have h1 : ∀ l : List I, predicate_calls (l.map call.predicate) = l := by
    intro l
    induction l with
    | nil => rfl
    | cons x xs ih => simp [predicate_calls, ih]
  have h2 : ∀ l : List I, predicate_calls (l.map call.callable) = [] := by
    intro l
    induction l with
    | nil => rfl
    | cons x xs ih => simp [predicate_calls, ih]
  simp [predicate_calls_append, h1, h2]

/-- C10. Incremental stages are lazy and complete stages are eager: with a
predicate `p` and a callable `f` that record their calls,
`apply(r, filter(p), for_each(f))` makes the calls interleaved per element
(`p` on `x`, then `f` on `x` if `p` held, then the next element), whereas
`apply(r, filter(p), to_vector(), for_each(f))` makes every call of `p` before
the first call of `f`; in both, `p` is called exactly once per element of `r`,
in order. -/
theorem lazy_and_eager_call_order :
    (∀ (I : Type) (q : I → Bool) (r : List I) (calls : List (call I)),
      apply r (.after_complete (filter (recording_predicate q))
          (.after_incremental (for_each recording_for_each) .nil)) calls
        = ((), calls ++ interleaved_calls q r))
    ∧ (∀ (I : Type) (q : I → Bool) (r : List I) (calls : List (call I)),
      apply r (.after_complete (filter (recording_predicate q))
          (.after_incremental to_vector
            (.after_complete (for_each recording_for_each) .nil))) calls
        = ((), calls ++ (r.map call.predicate ++ (r.filter q).map call.callable)))
    ∧ (∀ (I : Type) (q : I → Bool) (r : List I),
      predicate_calls (apply r (.after_complete (filter (recording_predicate q))
          (.after_incremental (for_each recording_for_each) .nil)) []).2 = r
      ∧ predicate_calls (apply r (.after_complete (filter (recording_predicate q))
          (.after_incremental to_vector
            (.after_complete (for_each recording_for_each) .nil))) []).2 = r) := by
  have lazy : ∀ (I : Type) (q : I → Bool) (r : List I) (calls : List (call I)),
      apply r (.after_complete (filter (recording_predicate q))
          (.after_incremental (for_each recording_for_each) .nil)) calls
        = ((), calls ++ interleaved_calls q r) := by
    intro I q r calls
    simp only [apply_eq_chain, pack.chain, filter, for_each]
    exact lazy_calls_from q r calls
  have eager : ∀ (I : Type) (q : I → Bool) (r : List I) (calls : List (call I)),
      apply r (.after_complete (filter (recording_predicate q))
          (.after_incremental to_vector
            (.after_complete (for_each recording_for_each) .nil))) calls
        = ((), calls ++ (r.map call.predicate ++ (r.filter q).map call.callable)) := by
    intro I q r calls
    simp only [apply_eq_chain, pack.chain, filter, for_each, to_vector,
      accumulate_in_place]
    have h := eager_filter_from q
      (range_action_impl.process_complete
        (for_each_impl recording_for_each detail.end_aco)) r calls
    simp only [value_initialised.value]
    rw [h, process_complete_for_each, foldl_recording_for_each]
    simp [detail.end_aco]
  refine ⟨lazy, eager, ?_⟩
  intro I q r
  constructor
  · rw [lazy]
    simpa using predicate_calls_interleaved q r
  · rw [eager]
    simpa using predicate_calls_eager q r

end ranges.actions


namespace meta_struct_20.cppcon_version

/-! ## Lemmas on the deduction of a base by its tag -/

theorem deduce_base_perm {B : Type} (is_match : B → Bool) {l1 l2 : List B}
    (h : l1.Perm l2) : deduce_base is_match l1 = deduce_base is_match l2 := by
  have hf : (l1.filter is_match).Perm (l2.filter is_match) := h.filter is_match
  unfold deduce_base
  cases h1 : l1.filter is_match with
  | nil =>
    rw [h1] at hf
    rw [List.nil_perm.mp hf]
  | cons b t =>
    cases t with
    | nil =>
      rw [h1] at hf
      rw [List.singleton_perm.mp hf]
    | cons b2 t2 =>
      rw [h1] at hf
      cases h2 : l2.filter is_match with
      | nil => rfl
      | cons c u =>
        cases u with
        | nil =>
          have hlen := hf.length_eq
          rw [h2] at hlen
          simp at hlen
        | cons c2 u2 => rfl

theorem filter_tag_unique {B : Type} (tagOf : B → String) {l : List B}
    (hnd : (l.map tagOf).Nodup) {b : B} (hb : b ∈ l) :
    l.filter (fun x => decide (tagOf x = tagOf b)) = [b] := by
  induction l with
  | nil => cases hb
  | cons x xs ih =>
    rw [List.map_cons, List.nodup_cons] at hnd
    rcases List.mem_cons.mp hb with h | h
    · subst h
      have : xs.filter (fun x => decide (tagOf x = tagOf b)) = [] := by
        rw [List.filter_eq_nil_iff]
        intro y hy hyb
        exact hnd.1 (List.mem_map.mpr ⟨y, hy, by simpa using hyb⟩)
      simp [List.filter_cons, this]
    · have hx : tagOf x ≠ tagOf b := by
        intro e
        exact hnd.1 (List.mem_map.mpr ⟨b, h, e.symm⟩)
      simp [List.filter_cons, hx, ih hnd.2 h]

theorem deduce_base_unique {B : Type} (tagOf : B → String) {l : List B}
    (hnd : (l.map tagOf).Nodup) {b : B} (hb : b ∈ l) :
    deduce_base (fun x => decide (tagOf x = tagOf b)) l = some b := by
  unfold deduce_base
  rw [filter_tag_unique tagOf hnd hb]

namespace tagged_tuple_constructed_2

theorem moved_bases_tags {Ty : Type} [type_system Ty] (tag : String)
    (bases : List (tag_and_value Ty)) :
    (bases.map (fun b => if b.Tag = tag then b.moved_from else b)).map
        (fun tv => tv.Tag)
      = bases.map (fun tv => tv.Tag) := by
  induction bases with
  | nil => rfl
  | cons b bs ih =>
    simp only [List.map_cons, ih]
    by_cases h : b.Tag = tag
    · simp [h, tag_and_value.moved_from]
    · simp [h]

theorem mem_moved_bases_of_ne {Ty : Type} [type_system Ty] (tag : String)
    (bases : List (tag_and_value Ty)) (tv : tag_and_value Ty)
    (hne : tv.Tag ≠ tag) :
    tv ∈ bases.map (fun b => if b.Tag = tag then b.moved_from else b)
      ↔ tv ∈ bases := by
  constructor
  · intro h
    obtain ⟨b, hb, e⟩ := List.mem_map.mp h
    by_cases hbt : b.Tag = tag
    · rw [if_pos hbt] at e
      exfalso
      apply hne
      rw [← e]
      exact hbt
    · rw [if_neg hbt] at e
      rw [← e]
      exact hb
  · intro h
    exact List.mem_map.mpr ⟨tv, h, if_neg hne⟩

theorem member_from_parms_of_mem {Ty : Type} [type_system Ty] (M : member_type Ty)
    (args : List (tag_and_value Ty)) (hnd : (args.map (fun tv => tv.Tag)).Nodup)
    (tv : tag_and_value Ty) (htv : tv ∈ args) (htag : tv.Tag = M.Tag)
    (conv : type_system.denote tv.T → type_system.denote M.T)
    (hconv : type_system.construct tv.T M.T = some conv) :
    member.from_parms M ⟨args⟩
      = some (⟨M.Tag, M.T, conv tv.value⟩,
          ⟨args.map (fun b => if b.Tag = M.Tag then b.moved_from else b)⟩) := by
  unfold member.from_parms
  have h : deduce_base (fun x : tag_and_value Ty => decide (x.Tag = tv.Tag)) args
      = some tv :=
    deduce_base_unique (fun tv : tag_and_value Ty => tv.Tag) hnd htv
  rw [htag] at h
  simp only [h, hconv]

theorem from_parms_exists {Ty : Type} [type_system Ty]
    (Members : List (member_type Ty)) (args : List (tag_and_value Ty))
    (h_tags : (Members.map (fun M => M.Tag)).Nodup)
    (h_args : (args.map (fun tv => tv.Tag)).Nodup)
    (h_each : ∀ M ∈ Members, ∃ tv ∈ args,
      tv.Tag = M.Tag ∧ (type_system.construct tv.T M.T).isSome = true) :
    ∃ s, meta_struct_impl.from_parms Members ⟨args⟩ = some s
      ∧ List.Forall₂
          (fun M m => ∃ tv ∈ args, tv.Tag = M.Tag ∧
            ∃ conv, type_system.construct tv.T M.T = some conv
              ∧ m = ⟨M.Tag, M.T, conv tv.value⟩)
          Members s := by
  induction Members generalizing args with
  | nil => exact ⟨[], rfl, List.Forall₂.nil⟩
  | cons M Ms ih =>
    rw [List.map_cons, List.nodup_cons] at h_tags
    obtain ⟨tv, htv, htag, hc⟩ := h_each M (List.mem_cons_self _ _)
    obtain ⟨conv, hconv⟩ := Option.isSome_iff_exists.mp hc
    have hMs : ∀ M2 ∈ Ms, M2.Tag ≠ M.Tag := by
      intro M2 h2 e
      exact h_tags.1 (List.mem_map.mpr ⟨M2, h2, e⟩)
    have h_args2 :
        ((args.map (fun b => if b.Tag = M.Tag then b.moved_from else b)).map
          (fun tv => tv.Tag)).Nodup := by
      rw [moved_bases_tags]
      exact h_args
    have h_each2 : ∀ M2 ∈ Ms,
        ∃ tv ∈ args.map (fun b => if b.Tag = M.Tag then b.moved_from else b),
          tv.Tag = M2.Tag ∧ (type_system.construct tv.T M2.T).isSome = true := by
      intro M2 h2
      obtain ⟨tv2, htv2, htag2, hc2⟩ := h_each M2 (List.mem_cons_of_mem _ h2)
      have hne : tv2.Tag ≠ M.Tag := by rw [htag2]; exact hMs M2 h2
      exact ⟨tv2, (mem_moved_bases_of_ne M.Tag args tv2 hne).mpr htv2, htag2, hc2⟩
    obtain ⟨ms, hms, hall⟩ := ih _ h_tags.2 h_args2 h_each2
    refine ⟨⟨M.Tag, M.T, conv tv.value⟩ :: ms, ?_, ?_⟩
    · simp only [meta_struct_impl.from_parms,
        member_from_parms_of_mem M args h_args tv htv htag conv hconv, hms]
    · refine List.Forall₂.cons ⟨tv, htv, htag, conv, hconv, rfl⟩ ?_
      clear hms ih h_each2
      have hsub : ∀ M2 ∈ Ms, M2.Tag ≠ M.Tag := hMs
      clear hMs h_each h_tags
      induction hall with
      | nil => exact List.Forall₂.nil
      | cons h1 _ ih2 =>
        refine List.Forall₂.cons ?_ (ih2 (fun M2 h2 => hsub M2 (List.mem_cons_of_mem _ h2)))
        obtain ⟨tv2, htv2, htag2, rest⟩ := h1
        have hne : tv2.Tag ≠ M.Tag := by
          rw [htag2]
          exact hsub _ (List.mem_cons_self _ _)
        exact ⟨tv2, (mem_moved_bases_of_ne M.Tag args tv2 hne).mp htv2, htag2, rest⟩

theorem forall₂_mem {α β : Type} {R : α → β → Prop} {l1 : List α} {l2 : List β}
    (h : List.Forall₂ R l1 l2) : ∀ a ∈ l1, ∃ b ∈ l2, R a b := by
  induction h with
  | nil => intro a ha; cases ha
  | cons h1 _ ih =>
    intro a ha
    rcases List.mem_cons.mp ha with e | h2
    · subst e
      exact ⟨_, List.mem_cons_self _ _, h1⟩
    · obtain ⟨b, hb, e⟩ := ih a h2
      exact ⟨b, List.mem_cons_of_mem _ hb, e⟩

theorem get_of_mem {Ty : Type} [type_system Ty] (s : List (member Ty))
    (hnd : (s.map (fun m => m.Tag)).Nodup) (m : member Ty) (hm : m ∈ s) :
    get m.Tag s = some ⟨m.T, m.value⟩ := by
  unfold get
  rw [deduce_base_unique (fun m : member Ty => m.Tag) hnd hm]
  rfl

theorem tag_and_value_unique {Ty : Type} [type_system Ty]
    {args : List (tag_and_value Ty)} (hnd : (args.map (fun tv => tv.Tag)).Nodup)
    {tv1 tv2 : tag_and_value Ty} (h1 : tv1 ∈ args) (h2 : tv2 ∈ args)
    (e : tv1.Tag = tv2.Tag) : tv1 = tv2 := by
  have hf := filter_tag_unique (fun tv : tag_and_value Ty => tv.Tag) hnd h2
  have hmem : tv1 ∈ args.filter (fun x => decide (x.Tag = tv2.Tag)) :=
    List.mem_filter.mpr ⟨h1, by simpa using e⟩
  rw [hf] at hmem
  exact List.mem_singleton.mp hmem

/-- C4. For every `meta_struct` type whose members have pairwise distinct
tags, and every construction with named arguments of pairwise distinct tags
that supplies, for each member, an argument `arg<tag> = v` from which the
member can be initialised, the struct is constructed, and `get<tag>` on it
returns the value `v` supplied for that same tag, converted to the member's
type. -/
theorem get_named_argument {Ty : Type} [type_system Ty]
    (Members : List (member_type Ty)) (args : List (tag_and_value Ty))
    (h_tags : (Members.map (fun M => M.Tag)).Nodup)
    (h_args : (args.map (fun tv => tv.Tag)).Nodup)
    (h_each : ∀ M ∈ Members, ∃ tv ∈ args,
      tv.Tag = M.Tag ∧ (type_system.construct tv.T M.T).isSome = true) :
    ∃ s, meta_struct.from_args Members args = some s
      ∧ ∀ M ∈ Members, ∀ tv ∈ args, tv.Tag = M.Tag →
          ∀ conv, type_system.construct tv.T M.T = some conv →
            get M.Tag s = some ⟨M.T, conv tv.value⟩ := by
  obtain ⟨s, hs, hall⟩ := from_parms_exists Members args h_tags h_args h_each
  refine ⟨s, hs, ?_⟩
  intro M hM tv htv htag conv hconv
  have hstags : s.map (fun m => m.Tag) = Members.map (fun M => M.Tag) := by
    clear hs hM h_each h_tags
    induction hall with
    | nil => rfl
    | cons h1 _ ih =>
      obtain ⟨_, _, _, _, _, e⟩ := h1
      simp [e, ih]
  have hsnd : (s.map (fun m => m.Tag)).Nodup := by rw [hstags]; exact h_tags
  obtain ⟨m, hm, tv2, htv2, htag2, conv2, hconv2, e⟩ := forall₂_mem hall M hM
  have htv_eq : tv2 = tv := tag_and_value_unique h_args htv2 htv (htag2.trans htag.symm)
  subst htv_eq
  rw [hconv] at hconv2
  cases hconv2
  have := get_of_mem s hsnd m hm
  rw [e] at this
  exact this

/-- C5. Named-argument construction of a `meta_struct` is independent of the
order of the arguments: for every permutation of the same arguments the
constructions agree (both are ill-formed, or both give the same struct), and so
every `get<tag>` returns the same value. -/
theorem construction_order_independent {Ty : Type} [type_system Ty]
    (Members : List (member_type Ty)) (args1 args2 : List (tag_and_value Ty))
    (h : args1.Perm args2) :
    meta_struct.from_args Members args1 = meta_struct.from_args Members args2
      ∧ ∀ tag, (meta_struct.from_args Members args1).bind (get tag)
          = (meta_struct.from_args Members args2).bind (get tag) := by
  have key : meta_struct.from_args Members args1
      = meta_struct.from_args Members args2 := by
    unfold meta_struct.from_args
    induction Members generalizing args1 args2 with
    | nil => rfl
    | cons M Ms ih =>
      simp only [meta_struct_impl.from_parms, member.from_parms]
      rw [deduce_base_perm _ h]
      cases hd : deduce_base (fun tv => decide (tv.Tag = M.Tag)) args2 with
      | none => rfl
      | some tv =>
        cases hc : type_system.construct tv.T M.T with
        | none => simp only [hc]
        | some conv =>
          simp only [hc]
          rw [ih _ _ (h.map _)]
  exact ⟨key, fun tag => by rw [key]⟩

/-- Witness for C4: `Person{arg<"id"> = 1, arg<"name"> = "John"}` meets the
hypotheses, is constructed, and gives `get<"id"> == 1`, `get<"name"> == "John"`. -/
theorem get_named_argument_witness :
    (Person.map (fun M => M.Tag)).Nodup
    ∧ main_p.bind (get "id") = some (int_value 1)
    ∧ main_p.bind (get "name") = some ⟨main_type.std_string, "John"⟩
    ∧ ∃ s, meta_struct.from_args Person
          [arg "id" main_type.int (1 : Int),
            arg "name" main_type.const_char_ptr "John"] = some s
        ∧ ∀ M ∈ Person, ∀ tv ∈ [arg "id" main_type.int (1 : Int),
            arg "name" main_type.const_char_ptr "John"], tv.Tag = M.Tag →
          ∀ conv, type_system.construct tv.T M.T = some conv →
            get M.Tag s = some ⟨M.T, conv tv.value⟩ :=
  ⟨by decide, rfl, rfl,
    get_named_argument Person
      [arg "id" main_type.int (1 : Int), arg "name" main_type.const_char_ptr "John"]
      (by decide) (by decide) (by decide)⟩

/-- Witness for C5: the two constructions of `main`, with the arguments in
either order, give the same `Person`, with `id == 1` and `name == "John"`. -/
theorem construction_order_independent_witness :
    main_p = main_p_assigned
    ∧ main_p_assigned.bind (get "id") = some (int_value 1)
    ∧ main_p_assigned.bind (get "name") = some ⟨main_type.std_string, "John"⟩ :=
  ⟨(construction_order_independent Person
      [arg "id" main_type.int (1 : Int), arg "name" main_type.const_char_ptr "John"]
      [arg "name" main_type.const_char_ptr "John", arg "id" main_type.int (1 : Int)]
      (List.Perm.swap _ _ _)).1, rfl, rfl⟩

end tagged_tuple_constructed_2

namespace meta_struct_print_5

theorem init_bases_iff {Ty : Type} [type_system Ty] (Members : List (member_type Ty))
    (self s : List (member Ty)) :
    meta_struct_impl.init_bases Members self = some s
      ↔ ∃ t, s = self ++ t ∧ t.length = Members.length
          ∧ ∀ i, (Members[i]?).bind (fun M => member.from_self M (self ++ t.take i))
              = t[i]? := by
  induction Members generalizing self with
  | nil =>
    simp only [meta_struct_impl.init_bases, Option.some.injEq, List.length_nil,
      List.getElem?_nil, Option.none_bind]
    constructor
    · intro h
      exact ⟨[], by simp [h], rfl, fun i => by simp⟩
    · rintro ⟨t, ht, hlen, -⟩
      rw [List.length_eq_zero] at hlen
      simp [ht, hlen]
  | cons M Ms ih =>
    simp only [meta_struct_impl.init_bases]
    cases hm : member.from_self M self with
    | none =>
      constructor
      · intro h; cases h
      · rintro ⟨t, -, hlen, hi⟩
        have h0 := hi 0
        simp only [List.getElem?_cons_zero, Option.some_bind, List.take_zero,
          List.append_nil, hm] at h0
        cases t with
        | nil => simp at hlen
        | cons a t2 => simp at h0
    | some m =>
      rw [ih]
      constructor
      · rintro ⟨t, ht, hlen, hi⟩
        refine ⟨m :: t, by simp [ht], by simp [hlen], ?_⟩
        intro i
        cases i with
        | zero => simp [hm]
        | succ j =>
          have := hi j
          simpa using this
      · rintro ⟨t, ht, hlen, hi⟩
        cases t with
        | nil => simp at hlen
        | cons a t2 =>
          have h0 := hi 0
          simp only [List.getElem?_cons_zero, Option.some_bind, List.take_zero,
            List.append_nil, hm, Option.some.injEq] at h0
          subst h0
          refine ⟨t2, by simp [ht], by simpa using hlen, ?_⟩
          intro j
          have := hi (j + 1)
          simpa using this

theorem default_ctor_iff {Ty : Type} [type_system Ty] (Members : List (member_type Ty))
    (s : List (member Ty)) :
    meta_struct.default_ctor Members = some s
      ↔ (s.length = Members.length
          ∧ ∀ i, (Members[i]?).bind (fun M => member.from_self M (s.take i)) = s[i]?) := by
  unfold meta_struct.default_ctor
  rw [init_bases_iff]
  constructor
  · rintro ⟨t, ht, hlen, hi⟩
    simp only [List.nil_append] at ht hi
    subst ht
    exact ⟨hlen, hi⟩
  · rintro ⟨hlen, hi⟩
    exact ⟨s, by simp, hlen, by simpa using hi⟩

theorem from_self_tag {Ty : Type} [type_system Ty] (M : member_type Ty)
    (self : List (member Ty)) (m : member Ty)
    (h : member.from_self M self = some m) : m.Tag = M.Tag := by
  unfold member.from_self at h
  split at h
  · cases h
  · split at h
    · cases h
    · cases h; rfl

theorem default_ctor_tags {Ty : Type} [type_system Ty] (Members : List (member_type Ty))
    (s : List (member Ty)) (h : meta_struct.default_ctor Members = some s) :
    s.map (fun m => m.Tag) = Members.map (fun M => M.Tag) := by
  obtain ⟨hlen, hi⟩ := (default_ctor_iff Members s).mp h
  apply List.ext_getElem
  · simp [hlen]
  · intro j h1 h2
    have hj1 : j < s.length := by simpa using h1
    have hj2 : j < Members.length := by simpa using h2
    have := hi j
    rw [List.getElem?_eq_getElem hj1, List.getElem?_eq_getElem hj2] at this
    simp only [Option.some_bind] at this
    simp only [List.getElem_map]
    exact from_self_tag _ _ _ this

theorem get_take {Ty : Type} [type_system Ty] (s : List (member Ty))
    (hnd : (s.map (fun m => m.Tag)).Nodup) (i : Nat) (tag : String)
    (htag : tag ∈ (s.take i).map (fun m => m.Tag)) :
    get tag s = get tag (s.take i) := by
  have hsplit : s = s.take i ++ s.drop i := (List.take_append_drop i s).symm
  have hdrop : (s.drop i).filter (fun m => decide (m.Tag = tag)) = [] := by
    rw [List.filter_eq_nil_iff]
    intro m hm hmt
    rw [hsplit, List.map_append, List.nodup_append] at hnd
    have hmt2 : m.Tag = tag := by simpa using hmt
    exact hnd.2.2 htag (List.mem_map.mpr ⟨m, hm, hmt2⟩)
  unfold get deduce_base
  conv_lhs => rw [hsplit]
  rw [List.filter_append, hdrop, List.append_nil]

theorem from_self_congr {Ty : Type} [type_system Ty] (M : member_type Ty)
    (f : List (member Ty) → Option (value Ty)) (hInit : M.Init = .unary f)
    (s1 s2 : List (member Ty)) (h : f s1 = f s2) :
    member.from_self M s1 = member.from_self M s2 := by
  unfold member.from_self call_init
  rw [hInit]
  simp only [h]

/-- C6. Default construction of a `meta_struct` initialises the members in
declaration order: the struct is constructed exactly when each member, in
turn, can be initialised from the struct that holds the earlier-declared
members, and it holds these members.  A member's value is `T{}` when it has
no initializer, the result of its initializer when that takes no argument, and
the result of its initializer applied to the struct when it takes the struct.
Hence, with pairwise distinct tags, a member whose initializer reads only
earlier-declared members holds the value of its initializer evaluated on the
final struct.  The default-constructed `Person` has `id == 0`,
`score == get<"id"> + 1 == 1` and `name == "John"`. -/
theorem default_construction :
    (∀ (Ty : Type) [type_system Ty] (Members : List (member_type Ty))
        (s : List (member Ty)),
      meta_struct.default_ctor Members = some s
        ↔ (s.length = Members.length
            ∧ ∀ i, (Members[i]?).bind (fun M => member.from_self M (s.take i))
                = s[i]?))
    ∧ (∀ (Ty : Type) [type_system Ty] (Tag : String) (T : Ty)
        (self : List (member Ty)),
      member.from_self { Tag := Tag, T := T } self
        = (type_system.value_init T).map (fun v => ⟨Tag, T, v⟩))
    ∧ (∀ (Ty : Type) [type_system Ty] (Tag : String) (T : Ty) (v : value Ty)
        (self : List (member Ty)),
      member.from_self { Tag := Tag, T := T, Init := .nullary (some v) } self
        = (type_system.construct v.1 T).map (fun conv => ⟨Tag, T, conv v.2⟩))
    ∧ (∀ (Ty : Type) [type_system Ty] (Tag : String) (T : Ty)
        (f : List (member Ty) → Option (value Ty)) (self : List (member Ty)),
      member.from_self { Tag := Tag, T := T, Init := .unary f } self
        = (f self).bind (fun v =>
            (type_system.construct v.1 T).map (fun conv => ⟨Tag, T, conv v.2⟩)))
    ∧ (∀ (Ty : Type) [type_system Ty] (Members : List (member_type Ty))
        (s : List (member Ty)) (i : Nat) (M : member_type Ty)
        (f : List (member Ty) → Option (value Ty)),
      (Members.map (fun M => M.Tag)).Nodup →
      meta_struct.default_ctor Members = some s →
      Members[i]? = some M →
      M.Init = .unary f →
      reads_only ((Members.take i).map (fun M => M.Tag)) f →
      member.from_self M s = s[i]?)
    ∧ (meta_struct.default_ctor Person).bind (get "id") = some (int_value 0)
    ∧ (meta_struct.default_ctor Person).bind (get "score") = some (int_value 1)
    ∧ (meta_struct.default_ctor Person).bind (get "name")
        = some ⟨main_type.std_string, "John"⟩ := by
  refine ⟨fun Ty _ => default_ctor_iff, ?_, ?_, ?_, ?_, rfl, rfl, rfl⟩
  · intro Ty _ Tag T self
    simp only [member.from_self, call_init, default_init]
    cases h : type_system.value_init T with
    | none => rfl
    | some v => simp [type_system.construct_same]
  · intro Ty _ Tag T v self
    simp only [member.from_self, call_init]
    cases h : type_system.construct v.1 T with
    | none => simp
    | some conv => simp [h]
  · intro Ty _ Tag T f self
    simp only [member.from_self, call_init]
    cases hf : f self with
    | none => rfl
    | some v =>
      cases h : type_system.construct v.1 T with
      | none => simp [h]
      | some conv => simp [h]
  · intro Ty _ Members s i M f hnd hs hM hInit hro
    obtain ⟨hlen, hi⟩ := (default_ctor_iff Members s).mp hs
    have hii := hi i
    rw [hM] at hii
    simp only [Option.some_bind] at hii
    rw [← hii]
    apply from_self_congr M f hInit
    apply hro
    intro tag htag
    have htags := default_ctor_tags Members s hs
    have hsnd : (s.map (fun m => m.Tag)).Nodup := by rw [htags]; exact hnd
    apply get_take s hsnd i tag
    rw [List.map_take, htags, ← List.map_take]
    exact htag

/-- C9. The static `meta_struct_apply<MetaStruct>(f)` passes `f` one pointer
per member of `MetaStruct`, in declaration order, each of them null, so no
struct is constructed; the tags obtained through it are the declared tags in
declaration order, each once.  For `Person` the tags are `"id"`, `"score"`,
`"name"`, and `main` prints them in that order. -/
theorem static_apply_tags :
    (∀ (Ty : Type) [type_system Ty] (MetaStruct : List (member_type Ty)),
      meta_struct_apply MetaStruct (fun ptrs => ptrs.map (fun q => q.M.Tag))
        = MetaStruct.map (fun M => M.Tag))
    ∧ (∀ (Ty : Type) [type_system Ty] (MetaStruct : List (member_type Ty)),
      meta_struct_apply MetaStruct (fun ptrs => ptrs.length)
        = MetaStruct.length)
    ∧ (∀ (Ty : Type) [type_system Ty] (MetaStruct : List (member_type Ty)),
      meta_struct_apply MetaStruct
          (fun ptrs => ptrs.all (fun q => q.pointee.isNone))
        = true)
    ∧ meta_struct_apply Person (fun ptrs => ptrs.map (fun q => q.M.Tag))
        = ["id", "score", "name"]
    ∧ meta_struct_apply Person main_print_tags ""
        = "The tags are: id score name \n" := by
  refine ⟨?_, ?_, ?_, rfl, by decide⟩
  · intro Ty _ MetaStruct
    simp [meta_struct_apply, apply_static_impl.apply]
  · intro Ty _ MetaStruct
    simp [meta_struct_apply, apply_static_impl.apply]
  · intro Ty _ MetaStruct
    simp [meta_struct_apply, apply_static_impl.apply]

theorem score_init_reads_only : reads_only ["id"] score_init := by
  intro s1 s2 h
  have hid := h "id" (List.mem_singleton.mpr rfl)
  simp only [score_init, hid]

/-- Witness for C6: the initializer of `score` reads only `id`, declared
before it, and the `score` of the default-constructed `Person` is that
initializer evaluated on the final struct. -/
theorem default_construction_witness :
    ∃ s, meta_struct.default_ctor Person = some s
      ∧ member.from_self { Tag := "score", T := .int, Init := .unary score_init } s
          = s[1]? :=
  ⟨_, rfl, default_construction.2.2.2.2.1 main_type Person _ 1 _ score_init
    (by decide) rfl rfl rfl score_init_reads_only⟩

end meta_struct_print_5

end meta_struct_20.cppcon_version
